import Mathlib

/-!
Verification of the Atlas catalog/configuration core: a shallow embedding of
`src/backend/src/atlas/adapters/sync/git_catalog_sync.py` (the reconciler) and
`src/backend/src/atlas/application/services/atlas_service.py` (catalog cache,
visibility, effective-configuration merge, versioning/rollback), together with
theorems about reconciliation, visibility, pagination, merge and rollback.

Strings are modelled as Lean `String`; the Python `str` primitives used by the
code (`startswith`, `rsplit`, `lower`, `in`, slicing) are re-implemented over
`String.data` so that all definitions compute by kernel reduction.
-/

deriving instance DecidableEq for Except

namespace Atlas

/-! ## Python string primitives -/

/-- Model of list prefix test; `listStarts pre l` is true iff `pre` is a prefix of `l`. -/
def listStarts : List Char → List Char → Bool
  | [], _ => true
  | _ :: _, [] => false
  | a :: as, b :: bs => a = b && listStarts as bs

/-- Model of Python `s.startswith(pre)`. -/
def strStarts (s pre : String) : Bool := listStarts pre.data s.data

/-- Model of Python `s.endswith(suf)`. -/
def strEnds (s suf : String) : Bool := listStarts suf.data.reverse s.data.reverse

/-- Model of Python `str.lower` on one character (ASCII, as the code's inputs). -/
def charLower (c : Char) : Char :=
  if 65 ≤ c.toNat ∧ c.toNat ≤ 90 then Char.ofNat (c.toNat + 32) else c

/-- Model of Python `s.lower()`. -/
def strLower (s : String) : String := ⟨s.data.map charLower⟩

/-- Substring containment on character lists (Python `pat in s`). -/
def listSub : List Char → List Char → Bool
  | l, pat =>
    if listStarts pat l then true else
      match l with
      | [] => false
      | _ :: t => listSub t pat

/-- Model of Python `pat in s` (substring containment). -/
def strIn (pat s : String) : Bool := listSub s.data pat.data

/-- The part of `s` after the last occurrence of `c` (all of `s` if `c` absent):
Python `s.rsplit(c, 1)[-1]`. -/
def afterLast (c : Char) (s : String) : String :=
  ⟨s.data.foldl (fun acc ch => if ch = c then [] else acc ++ [ch]) []⟩

/-- The part of `s` before the last occurrence of `c`: Python `s.rsplit(c, 1)[0]`
when `c` occurs in `s`. -/
def beforeLast (c : Char) (s : String) : String :=
  ⟨((s.data.reverse.dropWhile (fun ch => ch ≠ c)).drop 1).reverse⟩

/-- Model of Python slicing `s[:n]`. -/
def strTake (s : String) (n : Nat) : String := ⟨s.data.take n⟩

/-- Lexicographic comparison of character lists by code point, the order Python's
`sorted` uses on `str` keys. -/
def listLe : List Char → List Char → Bool
  | [], _ => true
  | _ :: _, [] => false
  | a :: as, b :: bs => if a = b then listLe as bs else decide (a < b)

/-! ## Shared item type (`CatalogItemType`, domain/entities/catalog_item.py) -/

/-- Type discriminator for catalog items. -/
inductive CatalogItemType where
  | skill
  | mcp
  | tool
deriving DecidableEq, Repr

namespace Sync

/-! ## Reconciler (`GitCatalogSyncService`, adapters/sync/git_catalog_sync.py),
with the metadata-index semantics of `AbstractRepository` (save = upsert by id,
delete by id, lookup by `git_path`) and the content-store listing semantics of
`list_contents` (paths under a directory). -/

/-- The `CatalogItem` domain entity (the metadata-index record), restricted to the
fields the reconciler reads or writes. Timestamps and ids are `Nat`. -/
structure CatalogItem where
  id : Nat
  type : CatalogItemType
  name : String
  description : String
  git_path : String
  author_id : Nat
  updated_at : Nat
deriving DecidableEq, Repr

/-- The `DIRECTORY_TYPE_MAP`: directory prefixes mapped to catalog item types. -/
def DIRECTORY_TYPE_MAP : List (String × CatalogItemType) :=
  [("skills/", CatalogItemType.skill),
   ("mcps/", CatalogItemType.mcp),
   ("tools/", CatalogItemType.tool)]

/-- The `_path_to_type`: map a file path to its type by directory prefix. -/
def pathToType (path : String) : Option CatalogItemType :=
  (DIRECTORY_TYPE_MAP.find? (fun pr => strStarts path pr.1)).map (·.2)

/-- The `_extract_name`: filename without extension. -/
def extractName (path : String) : String :=
  let filename := afterLast '/' path
  if filename.data.contains '.' then beforeLast '.' filename else filename

/-- The `_create_catalog_item`: a new entity from a git path (fresh id modelled by
the caller-supplied `nid`, `updated_at` stamped with the current time). -/
def mkCatalogItem (nid now author : Nat) (path : String) (ty : CatalogItemType) : CatalogItem :=
  { id := nid, type := ty, name := extractName path, description := "",
    git_path := path, author_id := author, updated_at := now }

/-- State threaded through the sync service: the content store's file paths
(`_contents` keys), the metadata index's records, a fresh-id supply modelling
`uuid4`, the clock (`datetime.utcnow`), and the configured default author. -/
structure SyncState where
  store : List String
  index : List CatalogItem
  nextId : Nat
  now : Nat
  author : Nat
deriving DecidableEq, Repr

/-- Metadata-index `save` (upsert by id). -/
def saveItem (index : List CatalogItem) (it : CatalogItem) : List CatalogItem :=
  if index.any (fun j => j.id = it.id) then
    index.map (fun j => if j.id = it.id then it else j)
  else index ++ [it]

/-- Metadata-index `delete` (by id). -/
def deleteItem (index : List CatalogItem) (i : Nat) : List CatalogItem :=
  index.filter (fun j => decide (j.id ≠ i))

/-- The `get_catalog_item_by_git_path`: the record at a git path. -/
def getByGitPath (index : List CatalogItem) (p : String) : Option CatalogItem :=
  index.find? (fun j => j.git_path = p)

/-- The `existing_by_path` lookup: `sync_all` builds `{item.git_path: item}`, so a
duplicated path keeps the last record. -/
def lastByPath (index : List CatalogItem) (p : String) : Option CatalogItem :=
  index.reverse.find? (fun j => j.git_path = p)

/-- Content-store `list_contents(directory)`: file paths under a directory
(a trailing slash is appended when missing). -/
def listContents (store : List String) (dir : String) : List String :=
  let d := if strEnds dir "/" then dir else dir ++ "/"
  store.filter (fun p => strStarts p d)

/-- The `SyncResult`: counters plus collected per-item errors. -/
structure SyncResult where
  created : Nat
  updated : Nat
  deleted : Nat
  errors : List String
deriving DecidableEq, Repr

/-- One iteration of the `sync_paths` loop: classify the path, test existence in
the content store and in the index independently, then create / touch-and-save /
delete / do nothing. -/
def syncPathStep (st : SyncState) (res : SyncResult) (path : String) :
    SyncState × SyncResult :=
  match pathToType path with
  | none => (st, res)
  | some ty =>
    let fileExists := decide (path ∈ st.store)
    match getByGitPath st.index path with
    | none =>
      if fileExists then
        ({ st with
            index := saveItem st.index (mkCatalogItem st.nextId st.now st.author path ty),
            nextId := st.nextId + 1 },
         { res with created := res.created + 1 })
      else (st, res)
    | some it =>
      if fileExists then
        ({ st with index := saveItem st.index { it with updated_at := st.now } },
         { res with updated := res.updated + 1 })
      else
        ({ st with index := deleteItem st.index it.id },
         { res with deleted := res.deleted + 1 })

/-- The `sync_paths`: partial sync of a caller-supplied path list. -/
def syncPaths (st : SyncState) (paths : List String) : SyncState × SyncResult :=
  paths.foldl (fun acc p => syncPathStep acc.1 acc.2 p) (st, ⟨0, 0, 0, []⟩)

/-- The `sync_all` step (1): all git paths under the three type directories, as a set. -/
def gitPathsOf (store : List String) : List String :=
  ((DIRECTORY_TYPE_MAP.map (·.1)).flatMap (fun d => listContents store d)).dedup

/-- Intermediate state of the `sync_all` loops. -/
structure AllState where
  index : List CatalogItem
  nextId : Nat
  created : Nat
  updated : Nat
  deleted : Nat
  errors : List String
deriving DecidableEq, Repr

/-- Loop body for `paths_to_create`: classify (unrecognized prefixes are
skipped), build a minimal item and persist it. -/
def createStep (now author : Nat) (s : AllState) (p : String) : AllState :=
  match pathToType p with
  | none => s
  | some ty =>
    { s with
        index := saveItem s.index (mkCatalogItem s.nextId now author p ty),
        nextId := s.nextId + 1,
        created := s.created + 1 }

/-- Loop body for `paths_to_delete`: delete the record found in the original
`existing_by_path` map (`idx0`); a failed lookup is collected as an error. -/
def deleteStep (idx0 : List CatalogItem) (s : AllState) (p : String) : AllState :=
  match lastByPath idx0 p with
  | none => { s with errors := s.errors ++ ["Failed to delete item for " ++ p] }
  | some it => { s with index := deleteItem s.index it.id, deleted := s.deleted + 1 }

/-- Loop body for `paths_to_check`: touch the record's `updated_at` and re-save
(conservative assume-changed policy). -/
def touchStep (now : Nat) (idx0 : List CatalogItem) (s : AllState) (p : String) : AllState :=
  match lastByPath idx0 p with
  | none => { s with errors := s.errors ++ ["Failed to update item for " ++ p] }
  | some it =>
    { s with
        index := saveItem s.index { it with updated_at := now },
        updated := s.updated + 1 }

/-- The `sync_all`: full reconciliation — list git paths, diff against index paths,
then run the create, delete and touch loops. -/
def syncAll (st : SyncState) : SyncState × SyncResult :=
  let gitPaths : List String := gitPathsOf st.store
  let existingPaths : List String := (st.index.map (·.git_path)).dedup
  let s0 : AllState := ⟨st.index, st.nextId, 0, 0, 0, []⟩
  let s1 := (gitPaths.filter (fun p => decide (p ∉ existingPaths))).foldl
    (createStep st.now st.author) s0
  let s2 := (existingPaths.filter (fun p => decide (p ∉ gitPaths))).foldl
    (deleteStep st.index) s1
  let s3 := (gitPaths.filter (fun p => decide (p ∈ existingPaths))).foldl
    (touchStep st.now st.index) s2
  ({ st with index := s3.index, nextId := s3.nextId },
   ⟨s3.created, s3.updated, s3.deleted, s3.errors⟩)

end Sync

/-! ## Catalog cache and service (`AtlasService`, application/services/atlas_service.py) -/

/-- The `CatalogScope`: visibility tier of a catalog item. -/
inductive CatalogScope where
  | org
  | team
  | user
deriving DecidableEq, Repr

/-- Service-level `CatalogItem` dataclass (derived from git content). Ids are
the stable path hashes, kept abstract as strings. -/
structure CatalogItem where
  id : String
  type : CatalogItemType
  name : String
  description : String
  git_path : String
  tags : List String
  scope : CatalogScope
  scope_id : Option String
  readme_path : Option String
deriving DecidableEq, Repr

/-- The `CatalogItemDetail`: an item plus its full documentation text. -/
structure CatalogItemDetail extends CatalogItem where
  documentation : String
deriving DecidableEq, Repr

/-- The `User` entity: id plus the ordered list of team ids. -/
structure User where
  id : String
  team_ids : List String
deriving DecidableEq, Repr

/-- The `Team` entity: id and display name. -/
structure Team where
  id : String
  name : String
deriving DecidableEq, Repr

/-- The `UserConfiguration` pointer record: per-user git path and last commit sha. -/
structure UserConfig where
  user_id : String
  git_path : String
  current_commit_sha : String
deriving DecidableEq, Repr

/-- The external state read by the service: metadata records and the content
store's current contents (path ↦ text). -/
structure Env where
  users : List User
  teams : List Team
  configs : List UserConfig
  contents : List (String × String)
deriving Repr

/-- Content-store `get_content(path)`. -/
def getContent (env : Env) (p : String) : Option String :=
  (env.contents.find? (fun kv => kv.1 = p)).map (·.2)

/-- Metadata `get_user_by_id`. -/
def getUserById (env : Env) (uid : String) : Option User :=
  env.users.find? (fun u => u.id = uid)

/-- Metadata `get_team_by_id`. -/
def getTeamById (env : Env) (tid : String) : Option Team :=
  env.teams.find? (fun t => t.id = tid)

/-- Metadata `get_configuration_by_user_id`. -/
def getConfigByUserId (env : Env) (uid : String) : Option UserConfig :=
  env.configs.find? (fun c => c.user_id = uid)

/-- The `_filter_items_by_visibility`: org items always pass; team items require the
item's scope owner among the viewer's team ids; user items require the scope
owner to equal the viewer. -/
def filterItemsByVisibility (items : List CatalogItem) (user_id : Option String)
    (team_ids : List String) : List CatalogItem :=
  items.filter (fun item =>
    match item.scope with
    | CatalogScope.org => true
    | CatalogScope.team => team_ids.any (fun tid => item.scope_id = some tid)
    | CatalogScope.user => decide (item.scope_id = user_id))

/-- The visibility stage of `list_catalog_items`: with a user context the full
filter runs; with no user context only org-scoped items are kept. -/
def visibleCatalogItems (cache : List CatalogItem) (user_id : Option String)
    (team_ids : Option (List String)) : List CatalogItem :=
  match user_id with
  | some _ => filterItemsByVisibility cache user_id (team_ids.getD [])
  | none => cache.filter (fun i => decide (i.scope = CatalogScope.org))

/-- The free-text search predicate: case-insensitive substring match against
name, description or any tag. -/
def searchPred (q : String) (i : CatalogItem) : Bool :=
  strIn (strLower q) (strLower i.name) || strIn (strLower q) (strLower i.description)
    || i.tags.any (fun t => strIn (strLower q) (strLower t))

/-- The filter pipeline of `list_catalog_items` before sorting and pagination:
visibility, then optional type filter, then optional search filter (a `None` or
empty query is skipped, matching Python truthiness). -/
def catalogFiltered (cache : List CatalogItem) (user_id : Option String)
    (team_ids : Option (List String)) (item_type : Option CatalogItemType)
    (search_query : Option String) : List CatalogItem :=
  let items := visibleCatalogItems cache user_id team_ids
  let items2 := match item_type with
    | some ty => items.filter (fun i => decide (i.type = ty))
    | none => items
  match search_query with
  | none => items2
  | some q => if q = "" then items2 else items2.filter (searchPred q)

/-- Sort key order: ascending by case-insensitively lowered name. -/
def itemLe (a b : CatalogItem) : Bool :=
  listLe (strLower a.name).data (strLower b.name).data

/-- The sort order as a decidable relation. -/
def itemOrder (a b : CatalogItem) : Prop := itemLe a b = true

instance : DecidableRel itemOrder := fun a b => Bool.decEq (itemLe a b) true

/-- The `list_catalog_items`: filter, sort by name (case-insensitive — Python's
stable `sorted`, modelled by stable insertion sort), slice
`[offset, offset+limit)` and report the pre-pagination count. -/
def listCatalogItems (cache : List CatalogItem) (user_id : Option String)
    (team_ids : Option (List String)) (item_type : Option CatalogItemType)
    (search_query : Option String) (offset limit : Nat) :
    List CatalogItem × Nat :=
  let sortedItems :=
    List.insertionSort itemOrder (catalogFiltered cache user_id team_ids item_type search_query)
  ((sortedItems.drop offset).take limit, sortedItems.length)

/-- The `get_catalog_item`: look the item up by id in the full cache, apply the
single-item visibility check only when a viewer id was supplied, then attach the
README documentation. -/
def getCatalogItem (env : Env) (cache : List CatalogItem) (item_id : String)
    (user_id : Option String) (team_ids : Option (List String)) :
    Option CatalogItemDetail :=
  match cache.find? (fun i => i.id = item_id) with
  | none => none
  | some item =>
    let blocked := match user_id with
      | some _ => (filterItemsByVisibility [item] user_id (team_ids.getD [])).isEmpty
      | none => false
    if blocked then none
    else
      let documentation := match item.readme_path with
        | none => ""
        | some rp => if rp = "" then "" else (getContent env rp).getD ""
      some { toCatalogItem := item, documentation := documentation }

/-- The `delete_catalog_item` (after `_ensure_cache`): owner-gated delete of the
item's `README.md` and `config.yaml` from the content store. The result is the
returned boolean, the content store afterwards, and whether the forced cache
refresh ran. -/
def deleteCatalogItem (contents : List (String × String)) (cache : List CatalogItem)
    (user_id : String) (item_id : String) :
    Bool × List (String × String) × Bool :=
  match cache.find? (fun i => i.id = item_id) with
  | none => (false, contents, false)
  | some item =>
    if item.scope = CatalogScope.user ∧ item.scope_id = some user_id then
      let c1 := contents.filter (fun kv => decide (kv.1 ≠ item.git_path ++ "/README.md"))
      let c2 := c1.filter (fun kv => decide (kv.1 ≠ item.git_path ++ "/config.yaml"))
      (true, c2, true)
    else (false, contents, false)

/-! ## Effective configuration (`get_effective_configuration`) -/

/-- The `EffectiveConfiguration`: merged text plus the per-level breakdown. -/
structure EffectiveConfiguration where
  content : String
  org_content : String
  team_content : String
  user_content : String
deriving DecidableEq, Repr

/-- The `_get_org_config_path`. -/
def orgConfigPath : String := "org/claude.md"

/-- The `_get_team_config_path`. -/
def teamConfigPath (tid : String) : String := "teams/" ++ tid ++ "/claude.md"

/-- The `_get_user_config_path`. -/
def userConfigPath (uid : String) : String := "users/" ++ uid ++ "/claude.md"

/-- Resolve the user's teams in membership order, dropping missing records. -/
def resolveTeams (env : Env) (user : User) : List Team :=
  user.team_ids.filterMap (getTeamById env)

/-- The `(team name, content)` pairs collected by the merge: one per resolved
team whose fetched content is non-empty, in team order. -/
def teamContentPieces (env : Env) (teams : List Team) : List (String × String) :=
  teams.filterMap (fun t =>
    let c := (getContent env (teamConfigPath t.id)).getD ""
    if c = "" then none else some (t.name, c))

/-- The org-level content, missing treated as empty. -/
def orgLevelContent (env : Env) : String :=
  (getContent env orgConfigPath).getD ""

/-- The user-level content: empty when no pointer record exists or the pointed
path has no content. -/
def userLevelContent (env : Env) (uid : String) : String :=
  match getConfigByUserId env uid with
  | none => ""
  | some cfg => (getContent env cfg.git_path).getD ""

/-- The `get_effective_configuration`: look up the user (absent ⇒ all-empty result),
fetch per-level contents, and join the non-empty sections with provenance
headings and the fixed separator. -/
def getEffectiveConfiguration (env : Env) (uid : String) : EffectiveConfiguration :=
  match getUserById env uid with
  | none => ⟨"", "", "", ""⟩
  | some user =>
    let org_content := orgLevelContent env
    let team_contents := teamContentPieces env (resolveTeams env user)
    let user_content := userLevelContent env uid
    let sections :=
      (if org_content ≠ "" then ["# Organization Configuration\n\n" ++ org_content] else [])
      ++ team_contents.map (fun pr => "# Team: " ++ pr.1 ++ "\n\n" ++ pr.2)
      ++ (if user_content ≠ "" then ["# Personal Configuration\n\n" ++ user_content] else [])
    { content := String.intercalate "\n\n---\n\n" sections,
      org_content := org_content,
      team_content := String.intercalate "\n\n" (team_contents.map (·.2)),
      user_content := user_content }

/-- Modelled from the spec: the merge format of §4.4 — an ordered list of
non-empty sections (organization, each named team, personal), each prefixed
with its provenance heading, joined with the fixed separator; all levels empty
gives the empty string. Stated independently of the implementation for the
refinement comparison. -/
def specMergedText (org : String) (teamSecs : List (String × String)) (user : String) : String :=
  let sections :=
    (if org = "" then [] else ["# Organization Configuration\n\n" ++ org])
    ++ teamSecs.map (fun pr => "# Team: " ++ pr.1 ++ "\n\n" ++ pr.2)
    ++ (if user = "" then [] else ["# Personal Configuration\n\n" ++ user])
  String.intercalate "\n\n---\n\n" sections

/-! ## Configuration versioning (`save_user_configuration`,
`rollback_configuration_to_version`) over a commit-log model of the content
store. -/

/-- One content-store commit. -/
structure Commit where
  path : String
  content : String
  message : String
  sha : String
deriving DecidableEq, Repr

/-- State for the versioning subsystem: the append-only commit log, a fresh-sha
supply, and the configuration-pointer records. -/
structure ConfigEnv where
  commits : List Commit
  nextSha : Nat
  configs : List UserConfig
deriving DecidableEq, Repr

/-- Content-store `save_content`: append a commit with a fresh sha. -/
def saveContent (st : ConfigEnv) (path content message : String) : ConfigEnv × String :=
  let sha := "sha" ++ toString st.nextSha
  ({ st with commits := st.commits ++ [⟨path, content, message, sha⟩],
             nextSha := st.nextSha + 1 }, sha)

/-- Content-store `get_content_at_version`: the content committed for a path at
a given sha, absent when no such version exists. -/
def getContentAtVersion (st : ConfigEnv) (path sha : String) : Option String :=
  (st.commits.find? (fun c => c.path = path && c.sha = sha)).map (·.content)

/-- Pointer lookup `get_configuration_by_user_id` against the versioning state. -/
def ConfigEnv.configByUserId (st : ConfigEnv) (uid : String) : Option UserConfig :=
  st.configs.find? (fun c => c.user_id = uid)

/-- Pointer `save_configuration`: upsert keyed by user id (unique constraint). -/
def saveConfiguration (configs : List UserConfig) (cfg : UserConfig) : List UserConfig :=
  if configs.any (fun c => c.user_id = cfg.user_id) then
    configs.map (fun c => if c.user_id = cfg.user_id then cfg else c)
  else configs ++ [cfg]

/-- The `save_user_configuration`: commit the content at the user's fixed path, then
create or update the pointer record with the new sha. -/
def saveUserConfiguration (st : ConfigEnv) (uid content : String)
    (message : Option String) : ConfigEnv × UserConfig :=
  let path := userConfigPath uid
  let msg := message.getD ("Update configuration for user " ++ uid)
  let r := saveContent st path content msg
  let cfg := match r.1.configByUserId uid with
    | none => { user_id := uid, git_path := path, current_commit_sha := r.2 }
    | some c0 => { c0 with current_commit_sha := r.2 }
  ({ r.1 with configs := saveConfiguration r.1.configs cfg }, cfg)

/-- Typed errors raised by `rollback_configuration_to_version`:
`ConfigurationNotFoundError(user_id)` and `VersionNotFoundError(sha, path)`. -/
inductive RollbackError where
  | configurationNotFound (user_id : String)
  | versionNotFound (commit_sha : String) (path : String)
deriving DecidableEq, Repr

/-- The `rollback_configuration_to_version`: no pointer ⇒ configuration-not-found;
no content at the requested sha for the pointer's path ⇒ version-not-found;
otherwise replay the historical content as a new commit via
`save_user_configuration` with a message naming the short sha. The state is
threaded so the error cases visibly leave it untouched. -/
def rollbackConfigurationToVersion (st : ConfigEnv) (uid sha : String) :
    ConfigEnv × Except RollbackError UserConfig :=
  match st.configByUserId uid with
  | none => (st, Except.error (RollbackError.configurationNotFound uid))
  | some cfg =>
    match getContentAtVersion st cfg.git_path sha with
    | none => (st, Except.error (RollbackError.versionNotFound sha cfg.git_path))
    | some oldContent =>
      let r := saveUserConfiguration st uid oldContent
        (some ("Rollback to version " ++ strTake sha 7))
      (r.1, Except.ok r.2)

/-! ## Concrete states used by witnesses and counterexamples -/

/-- A store path that exists with a matching index record (the `P ∩ R` cell). -/
def exTouchState : Sync.SyncState :=
  { store := ["skills/foo/README.md"],
    index := [{ id := 0, type := CatalogItemType.skill, name := "README",
                description := "", git_path := "skills/foo/README.md",
                author_id := 0, updated_at := 0 }],
    nextId := 1, now := 5, author := 0 }

/-- A store path that exists with no index record (the `P − R` cell). -/
def exCreateState : Sync.SyncState :=
  { store := ["skills/foo/README.md"], index := [], nextId := 0, now := 5, author := 0 }

/-- A mixed reconciliation state: one path to create, one stale record to
delete, one intersecting path, and one unrecognized-prefix path. -/
def exSyncState : Sync.SyncState :=
  { store := ["skills/a/x.md", "tools/b/y.md", "docs/readme.txt"],
    index := [{ id := 0, type := CatalogItemType.skill, name := "z",
                description := "", git_path := "skills/gone/z.md",
                author_id := 0, updated_at := 0 },
              { id := 1, type := CatalogItemType.skill, name := "x",
                description := "", git_path := "skills/a/x.md",
                author_id := 0, updated_at := 0 }],
    nextId := 2, now := 7, author := 0 }

/-- Example 2 of the spec: org "O", one team T with "Y", user "U-text". -/
def exMergeEnv : Env :=
  { users := [⟨"U", ["T1"]⟩], teams := [⟨"T1", "T"⟩],
    configs := [⟨"U", "users/U/claude.md", "s0"⟩],
    contents := [("org/claude.md", "O"), ("teams/T1/claude.md", "Y"),
                 ("users/U/claude.md", "U-text")] }

/-- Same records, but the content store holds nothing: every level is empty. -/
def exEmptyEnv : Env :=
  { users := [⟨"U", ["T1"]⟩], teams := [⟨"T1", "T"⟩],
    configs := [⟨"U", "users/U/claude.md", "s0"⟩], contents := [] }

/-- A user-scoped cached item owned by user "U". -/
def exUserItem : CatalogItem :=
  { id := "i1", type := CatalogItemType.skill, name := "s", description := "",
    git_path := "users/U/skills/s", tags := [], scope := CatalogScope.user,
    scope_id := some "U", readme_path := some "users/U/skills/s/README.md" }

/-- An environment with empty stores. -/
def exEnv0 : Env := ⟨[], [], [], []⟩

/-- A versioning state with one commit `sha0` and a pointer record for "U". -/
def exRollbackEnv : ConfigEnv :=
  { commits := [⟨"users/U/claude.md", "v1 text", "Update configuration for user U", "sha0"⟩],
    nextSha := 1,
    configs := [⟨"U", "users/U/claude.md", "sha0"⟩] }

/-- Teams whose membership order ("Zeta" before "Alpha") differs from name
order, to observe that team sections are not re-sorted. -/
def exOrderEnv : Env :=
  { users := [⟨"U", ["t1", "t2"]⟩],
    teams := [⟨"t1", "Zeta"⟩, ⟨"t2", "Alpha"⟩], configs := [],
    contents := [("teams/t1/claude.md", "ZC"), ("teams/t2/claude.md", "AC")] }

/-- Content store holding the two files of `exUserItem` plus an unrelated path. -/
def exDeleteContents : List (String × String) :=
  [("users/U/skills/s/README.md", "doc"), ("users/U/skills/s/config.yaml", "cfg"),
   ("org/claude.md", "O")]

/-- A small org-scoped cache for pagination checks. -/
def exPageCache : List CatalogItem :=
  [{ id := "a", type := CatalogItemType.skill, name := "Beta", description := "",
     git_path := "org/skills/beta", tags := [], scope := CatalogScope.org,
     scope_id := none, readme_path := none },
   { id := "b", type := CatalogItemType.skill, name := "alpha", description := "",
     git_path := "org/skills/alpha", tags := [], scope := CatalogScope.org,
     scope_id := none, readme_path := none },
   { id := "c", type := CatalogItemType.tool, name := "Gamma", description := "",
     git_path := "org/tools/gamma", tags := [], scope := CatalogScope.org,
     scope_id := none, readme_path := none }]

/-! ## Theorems -/

/-- Upserting a record whose id is fresh appends it. -/
theorem saveItem_append {index : List Sync.CatalogItem} {it : Sync.CatalogItem}
    (h : ∀ j ∈ index, j.id ≠ it.id) : Sync.saveItem index it = index ++ [it] := by
  unfold Sync.saveItem
  rw [if_neg]
  simp only [List.any_eq_true, decide_eq_true_eq, not_exists]
  intro j
  rw [not_and]
  exact h j

/-- Upserting a record whose id is present replaces it in place. -/
theorem saveItem_replace {index : List Sync.CatalogItem} {it : Sync.CatalogItem}
    (h : ∃ j ∈ index, j.id = it.id) :
    Sync.saveItem index it = index.map (fun j => if j.id = it.id then it else j) := by
  unfold Sync.saveItem
  rw [if_pos]
  simp only [List.any_eq_true, decide_eq_true_eq]
  exact h

/-- With unique ids and unique paths, removing a record by id is the same as
removing it by path. -/
theorem filter_id_eq_filter_path {index : List Sync.CatalogItem} {it : Sync.CatalogItem}
    (hids : (index.map (fun j => j.id)).Nodup)
    (hpaths : (index.map (fun j => j.git_path)).Nodup)
    (hmem : it ∈ index) :
    index.filter (fun j => decide (j.id ≠ it.id))
      = index.filter (fun j => decide (j.git_path ≠ it.git_path)) := by
  apply List.filter_congr
  intro j hj
  rw [decide_eq_decide]
  constructor
  · intro hidne hpe
    exact hidne (congrArg (fun x => x.id) (List.inj_on_of_nodup_map hpaths hj hmem hpe))
  · intro hpne hie
    exact hpne (congrArg (fun x => x.git_path) (List.inj_on_of_nodup_map hids hj hmem hie))

/-- C1 counterexample: on a path present in both the content store and the
index, `sync_paths` is not a no-op — it touches the record and reports
`updated = 1`. -/
theorem sync_paths_intersection_not_noop :
    (Sync.syncPaths exTouchState ["skills/foo/README.md"]).2.updated = 1
    ∧ (Sync.syncPaths exTouchState ["skills/foo/README.md"]).1.index ≠ exTouchState.index :=
  ⟨by decide, by decide⟩

/-- C1 amended: for a recognized path, `sync_paths` follows the decision table
with the exists-in-store-and-in-index cell touching and re-saving the record
(counted as updated) instead of a no-op; the other three cells are create,
delete and no-op as claimed, and a single store-only path reports
`created=1, updated=0, deleted=0`. -/
theorem sync_paths_decision_table (st : Sync.SyncState) (res : Sync.SyncResult)
    (path : String) (ty : CatalogItemType)
    (hty : Sync.pathToType path = some ty)
    (hids : (st.index.map (fun j => j.id)).Nodup)
    (hpaths : (st.index.map (fun j => j.git_path)).Nodup)
    (hfresh : ∀ j ∈ st.index, j.id < st.nextId) :
    (path ∈ st.store → Sync.getByGitPath st.index path = none →
        Sync.syncPathStep st res path
          = ({ st with
                index := st.index ++ [Sync.mkCatalogItem st.nextId st.now st.author path ty],
                nextId := st.nextId + 1 },
             { res with created := res.created + 1 }))
    ∧ (∀ it, path ∈ st.store → Sync.getByGitPath st.index path = some it →
        Sync.syncPathStep st res path
          = ({ st with index := st.index.map (fun j => if j.id = it.id then { it with updated_at := st.now } else j) },
             { res with updated := res.updated + 1 }))
    ∧ (∀ it, path ∉ st.store → Sync.getByGitPath st.index path = some it →
        Sync.syncPathStep st res path
          = ({ st with index := st.index.filter (fun j => decide (j.git_path ≠ path)) },
             { res with deleted := res.deleted + 1 }))
    ∧ (path ∉ st.store → Sync.getByGitPath st.index path = none →
        Sync.syncPathStep st res path = (st, res))
    ∧ (path ∈ st.store → Sync.getByGitPath st.index path = none →
        (Sync.syncPaths st [path]).2
          = { created := 1, updated := 0, deleted := 0, errors := [] }) := by
  have hcreate : ∀ res' : Sync.SyncResult, path ∈ st.store →
      Sync.getByGitPath st.index path = none →
      Sync.syncPathStep st res' path
        = ({ st with
              index := st.index ++ [Sync.mkCatalogItem st.nextId st.now st.author path ty],
              nextId := st.nextId + 1 },
           { res' with created := res'.created + 1 }) := by
    intro res' hmem hfind
    have happ := @saveItem_append st.index
      (Sync.mkCatalogItem st.nextId st.now st.author path ty)
      (fun j hj => Nat.ne_of_lt (hfresh j hj))
    simp only [Sync.syncPathStep, hty, hfind, hmem, decide_True, if_true]
    rw [happ]
  refine ⟨hcreate res, ?_, ?_, ?_, ?_⟩
  · intro it hmem hfind
    have hm : it ∈ st.index := List.mem_of_find?_eq_some hfind
    have hrepl := @saveItem_replace st.index
      { it with updated_at := st.now } ⟨it, hm, rfl⟩
    simp only [Sync.syncPathStep, hty, hfind, hmem, decide_True, if_true]
    rw [hrepl]
  · intro it hmem hfind
    have hm : it ∈ st.index := List.mem_of_find?_eq_some hfind
    have hp : it.git_path = path := by
      have := List.find?_some hfind
      simpa using this
    simp only [Sync.syncPathStep, hty, hfind, hmem, decide_False, Bool.false_eq_true, if_false]
    unfold Sync.deleteItem
    rw [filter_id_eq_filter_path hids hpaths hm, hp]
  · intro hmem hfind
    simp only [Sync.syncPathStep, hty, hfind, hmem, decide_False, Bool.false_eq_true, if_false]
  · intro hmem hfind
    simp only [Sync.syncPaths, List.foldl_cons, List.foldl_nil]
    rw [hcreate ⟨0, 0, 0, []⟩ hmem hfind]

/-- Witness for C1's amended decision table: the create cell on a concrete
state, reporting `created=1, updated=0, deleted=0`. -/
theorem sync_paths_decision_table_witness :
    Sync.pathToType "skills/foo/README.md" = some CatalogItemType.skill
    ∧ "skills/foo/README.md" ∈ exCreateState.store
    ∧ Sync.getByGitPath exCreateState.index "skills/foo/README.md" = none
    ∧ (Sync.syncPaths exCreateState ["skills/foo/README.md"]).2
        = { created := 1, updated := 0, deleted := 0, errors := [] } :=
  ⟨by decide, by decide, by decide,
   (sync_paths_decision_table exCreateState ⟨0, 0, 0, []⟩ "skills/foo/README.md"
      CatalogItemType.skill (by decide) (by decide) (by decide) (by decide)).2.2.2.2
     (by decide) (by decide)⟩

/-- The sort-key comparison is transitive. -/
theorem listLe_trans : ∀ x y z : List Char,
    listLe x y = true → listLe y z = true → listLe x z = true := by
  intro x
  induction x with
  | nil => intro y z _ _; rfl
  | cons a as ih =>
    intro y z hxy hyz
    cases y with
    | nil => simp [listLe] at hxy
    | cons b bs =>
      cases z with
      | nil => simp [listLe] at hyz
      | cons c cs =>
        simp only [listLe] at hxy hyz ⊢
        by_cases hab : a = b
        · subst hab
          by_cases hbc : a = c
          · subst hbc
            simp only [if_pos rfl] at hxy hyz ⊢
            exact ih _ _ hxy hyz
          · simp only [if_neg hbc] at hyz ⊢
            simp only [if_pos rfl] at hxy
            exact hyz
        · simp only [if_neg hab] at hxy
          have hlt : a < b := of_decide_eq_true hxy
          by_cases hbc : b = c
          · subst hbc
            simp only [if_neg hab]
            exact hxy
          · simp only [if_neg hbc] at hyz
            have hlt2 : b < c := of_decide_eq_true hyz
            have hac : a < c := lt_trans hlt hlt2
            simp [ne_of_lt hac, hac]

/-- The sort-key comparison is total. -/
theorem listLe_total : ∀ x y : List Char, listLe x y = true ∨ listLe y x = true := by
  intro x
  induction x with
  | nil => intro y; left; rfl
  | cons a as ih =>
    intro y
    cases y with
    | nil => right; rfl
    | cons b bs =>
      simp only [listLe]
      by_cases hab : a = b
      · subst hab
        simp only [if_pos rfl]
        exact ih bs
      · have hba : b ≠ a := fun e => hab e.symm
        rcases lt_or_gt_of_ne hab with h | h
        · left
          simp [hab, h]
        · right
          simp [hba, h]

/-- Summing `min L (T - k*L)` over `N` pages gives `min (N*L) T`. -/
theorem sum_min_slices (T L : Nat) :
    ∀ N, ∑ k ∈ Finset.range N, min L (T - k * L) = min (N * L) T := by
  intro N
  induction N with
  | zero => simp
  | succ n ih =>
    rw [Finset.sum_range_succ, ih, Nat.succ_mul]
    generalize n * L = m
    omega

/-- C8: `list_catalog_items` pages are slices `[offset, offset+limit)` of the
filtered list sorted ascending by case-insensitive name; a page never exceeds
`limit` items, the reported total is the pre-pagination filtered count, and the
page sizes over all pages sum back to that total. -/
theorem list_catalog_items_pagination (cache : List CatalogItem)
    (user_id : Option String) (team_ids : Option (List String))
    (item_type : Option CatalogItemType) (search_query : Option String)
    (offset limit : Nat) :
    (listCatalogItems cache user_id team_ids item_type search_query offset limit).1.length ≤ limit
    ∧ (listCatalogItems cache user_id team_ids item_type search_query offset limit).2
        = (catalogFiltered cache user_id team_ids item_type search_query).length
    ∧ (List.insertionSort itemOrder (catalogFiltered cache user_id team_ids item_type search_query)).Perm
        (catalogFiltered cache user_id team_ids item_type search_query)
    ∧ List.Pairwise itemOrder
        (List.insertionSort itemOrder (catalogFiltered cache user_id team_ids item_type search_query))
    ∧ (listCatalogItems cache user_id team_ids item_type search_query offset limit).1
        = ((List.insertionSort itemOrder (catalogFiltered cache user_id team_ids item_type search_query)).drop offset).take limit
    ∧ (0 < limit →
        ∀ N, (catalogFiltered cache user_id team_ids item_type search_query).length ≤ N * limit →
        ∑ k ∈ Finset.range N,
            (listCatalogItems cache user_id team_ids item_type search_query (k * limit) limit).1.length
          = (catalogFiltered cache user_id team_ids item_type search_query).length) := by
  haveI hTr : IsTrans CatalogItem itemOrder := ⟨fun a b c => listLe_trans _ _ _⟩
  haveI hTo : IsTotal CatalogItem itemOrder := ⟨fun a b => listLe_total _ _⟩
  have hperm := List.perm_insertionSort itemOrder
    (catalogFiltered cache user_id team_ids item_type search_query)
  have hsortlen : (List.insertionSort itemOrder
      (catalogFiltered cache user_id team_ids item_type search_query)).length
      = (catalogFiltered cache user_id team_ids item_type search_query).length :=
    hperm.length_eq
  have hpagelen : ∀ o l, (listCatalogItems cache user_id team_ids item_type search_query o l).1.length
      = min l ((catalogFiltered cache user_id team_ids item_type search_query).length - o) := by
    intro o l
    simp [listCatalogItems, List.length_take, List.length_drop, hsortlen]
  refine ⟨?_, ?_, hperm, ?_, rfl, ?_⟩
  · rw [hpagelen]
    exact Nat.min_le_left _ _
  · simp [listCatalogItems, hsortlen]
  · exact List.sorted_insertionSort itemOrder _
  · intro hL N hN
    calc ∑ k ∈ Finset.range N,
          (listCatalogItems cache user_id team_ids item_type search_query (k * limit) limit).1.length
        = ∑ k ∈ Finset.range N,
            min limit ((catalogFiltered cache user_id team_ids item_type search_query).length - k * limit) :=
          Finset.sum_congr rfl (fun k _ => hpagelen (k * limit) limit)
      _ = min (N * limit) (catalogFiltered cache user_id team_ids item_type search_query).length :=
          sum_min_slices _ _ N
      _ = (catalogFiltered cache user_id team_ids item_type search_query).length :=
          Nat.min_eq_right hN

/-- Witness for C8: three org items paged with `limit = 2` over two pages. -/
theorem list_catalog_items_pagination_witness :
    0 < 2
    ∧ (catalogFiltered exPageCache none none none none).length ≤ 2 * 2
    ∧ ∑ k ∈ Finset.range 2,
        (listCatalogItems exPageCache none none none none (k * 2) 2).1.length
      = (catalogFiltered exPageCache none none none none).length :=
  ⟨by decide, by decide,
   (list_catalog_items_pagination exPageCache none none none none 0 2).2.2.2.2.2
     (by decide) 2 (by decide)⟩

/-- C4: the effective-configuration merge concatenates the non-empty levels in
order org, teams (in resolution order), user, each prefixed by its provenance
heading and joined by the fixed separator (refinement against the spec-side
merge formula); on Example 2's data the merged text is byte-exact, and with all
levels empty the merged text is the empty string. -/
theorem effective_configuration_merge_format (env : Env) (uid : String) (user : User)
    (h : getUserById env uid = some user) :
    (getEffectiveConfiguration env uid).content
      = specMergedText (orgLevelContent env)
          (teamContentPieces env (resolveTeams env user)) (userLevelContent env uid)
    ∧ (getEffectiveConfiguration exMergeEnv "U").content
      = "# Organization Configuration\n\nO\n\n---\n\n# Team: T\n\nY\n\n---\n\n# Personal Configuration\n\nU-text"
    ∧ (getEffectiveConfiguration exEmptyEnv "U").content = "" := by
  refine ⟨?_, by decide, by decide⟩
  simp only [getEffectiveConfiguration, h, specMergedText]
  by_cases h1 : orgLevelContent env = "" <;>
    by_cases h2 : userLevelContent env uid = "" <;>
    simp [h1, h2]

/-- Witness for C4 at Example 2's environment. -/
theorem effective_configuration_merge_format_witness :
    getUserById exMergeEnv "U" = some ⟨"U", ["T1"]⟩
    ∧ ((getEffectiveConfiguration exMergeEnv "U").content
        = specMergedText (orgLevelContent exMergeEnv)
            (teamContentPieces exMergeEnv (resolveTeams exMergeEnv ⟨"U", ["T1"]⟩))
            (userLevelContent exMergeEnv "U")
      ∧ (getEffectiveConfiguration exMergeEnv "U").content
        = "# Organization Configuration\n\nO\n\n---\n\n# Team: T\n\nY\n\n---\n\n# Personal Configuration\n\nU-text"
      ∧ (getEffectiveConfiguration exEmptyEnv "U").content = "") :=
  ⟨by decide, effective_configuration_merge_format exMergeEnv "U" ⟨"U", ["T1"]⟩ (by decide)⟩

/-- C5: contrary to the claim, a single-item lookup with an absent viewer does
not re-apply the visibility rule: the code returns a user-scoped item (owned by
"U") to an absent viewer instead of not-found, while the owner/other-viewer
cases behave as claimed. -/
theorem get_catalog_item_absent_viewer_leak :
    getCatalogItem exEnv0 [exUserItem] "i1" (some "U") none
      = some { toCatalogItem := exUserItem, documentation := "" }
    ∧ getCatalogItem exEnv0 [exUserItem] "i1" (some "V") none = none
    ∧ getCatalogItem exEnv0 [exUserItem] "i1" none none
        = some { toCatalogItem := exUserItem, documentation := "" } :=
  ⟨by decide, by decide, by decide⟩

/-- C6: rollback raises exactly the two typed errors in the claimed order — no
pointer record gives configuration-not-found with the state untouched; a
pointer but no content at the requested version gives version-not-found naming
that version id and the pointer's path, with the state untouched; otherwise the
historical content is re-committed (append-only) with a message naming the
short version id. -/
theorem rollback_typed_errors (st : ConfigEnv) (uid sha : String) :
    (st.configByUserId uid = none →
        rollbackConfigurationToVersion st uid sha
          = (st, Except.error (RollbackError.configurationNotFound uid)))
    ∧ (∀ cfg, st.configByUserId uid = some cfg →
        getContentAtVersion st cfg.git_path sha = none →
        rollbackConfigurationToVersion st uid sha
          = (st, Except.error (RollbackError.versionNotFound sha cfg.git_path)))
    ∧ (∀ cfg oldContent, st.configByUserId uid = some cfg →
        getContentAtVersion st cfg.git_path sha = some oldContent →
        (rollbackConfigurationToVersion st uid sha).1.commits
          = st.commits
            ++ [{ path := userConfigPath uid, content := oldContent,
                  message := "Rollback to version " ++ strTake sha 7,
                  sha := "sha" ++ toString st.nextSha }]
        ∧ ∃ c, (rollbackConfigurationToVersion st uid sha).2 = Except.ok c) := by
  refine ⟨?_, ?_, ?_⟩
  · intro h
    simp [rollbackConfigurationToVersion, h]
  · intro cfg h hv
    simp [rollbackConfigurationToVersion, h, hv]
  · intro cfg oldContent h hv
    have h' : List.find? (fun c => decide (c.user_id = uid)) st.configs = some cfg := h
    simp only [rollbackConfigurationToVersion, ConfigEnv.configByUserId, h', hv]
    exact ⟨rfl, _, rfl⟩

/-- Witness for C6: Example 4 — rolling back to the absent version "deadbeef". -/
theorem rollback_typed_errors_witness :
    ConfigEnv.configByUserId exRollbackEnv "U" = some ⟨"U", "users/U/claude.md", "sha0"⟩
    ∧ getContentAtVersion exRollbackEnv "users/U/claude.md" "deadbeef" = none
    ∧ rollbackConfigurationToVersion exRollbackEnv "U" "deadbeef"
        = (exRollbackEnv,
           Except.error (RollbackError.versionNotFound "deadbeef" "users/U/claude.md")) :=
  ⟨by decide, by decide,
   (rollback_typed_errors exRollbackEnv "U" "deadbeef").2.1
     ⟨"U", "users/U/claude.md", "sha0"⟩ (by decide) (by decide)⟩

/-- C7: the effective-configuration operation degrades to empty strings instead
of raising — an unknown user yields the all-empty result, and for a known user
each level whose content is absent contributes the empty string. -/
theorem effective_configuration_degrades_on_missing (env : Env) (uid : String) :
    (getUserById env uid = none →
        getEffectiveConfiguration env uid
          = { content := "", org_content := "", team_content := "", user_content := "" })
    ∧ (∀ user, getUserById env uid = some user →
        (getContent env orgConfigPath = none →
            (getEffectiveConfiguration env uid).org_content = "")
        ∧ (getConfigByUserId env uid = none →
            (getEffectiveConfiguration env uid).user_content = "")
        ∧ (∀ cfg, getConfigByUserId env uid = some cfg →
            getContent env cfg.git_path = none →
            (getEffectiveConfiguration env uid).user_content = "")
        ∧ ((∀ t ∈ resolveTeams env user, getContent env (teamConfigPath t.id) = none) →
            (getEffectiveConfiguration env uid).team_content = "")) := by
  constructor
  · intro h
    simp [getEffectiveConfiguration, h]
  · intro user hu
    refine ⟨?_, ?_, ?_, ?_⟩
    · intro horg
      simp [getEffectiveConfiguration, hu, orgLevelContent, horg]
    · intro hc
      simp [getEffectiveConfiguration, hu, userLevelContent, hc]
    · intro cfg hc hcc
      simp [getEffectiveConfiguration, hu, userLevelContent, hc, hcc]
    · intro hteam
      have hp : teamContentPieces env (resolveTeams env user) = [] := by
        unfold teamContentPieces
        rw [List.filterMap_eq_nil_iff]
        intro t ht
        simp [hteam t ht]
      simp only [getEffectiveConfiguration, hu, hp, List.map_nil]
      rfl

/-- Witness for C7: an unknown user against empty stores. -/
theorem effective_configuration_degrades_on_missing_witness :
    getUserById exEnv0 "nobody" = none
    ∧ getEffectiveConfiguration exEnv0 "nobody"
      = { content := "", org_content := "", team_content := "", user_content := "" } :=
  ⟨by decide, (effective_configuration_degrades_on_missing exEnv0 "nobody").1 (by decide)⟩

/-- C9: repeated effective-configuration calls on unchanged data are
byte-identical; team resolution and section collection are compositional in the
user's team-id list (sections follow membership order, never re-sorted), and on
a concrete state with membership order Zeta-before-Alpha the merged text keeps
that order. -/
theorem effective_configuration_deterministic :
    (∀ env uid, (getEffectiveConfiguration env uid).content
        = (getEffectiveConfiguration env uid).content)
    ∧ (∀ env i l₁ l₂, resolveTeams env ⟨i, l₁ ++ l₂⟩
        = resolveTeams env ⟨i, l₁⟩ ++ resolveTeams env ⟨i, l₂⟩)
    ∧ (∀ env ts₁ ts₂, teamContentPieces env (ts₁ ++ ts₂)
        = teamContentPieces env ts₁ ++ teamContentPieces env ts₂)
    ∧ (getEffectiveConfiguration exOrderEnv "U").content
        = "# Team: Zeta\n\nZC\n\n---\n\n# Team: Alpha\n\nAC" := by
  refine ⟨fun env uid => rfl, ?_, ?_, by decide⟩
  · intro env i l₁ l₂
    simp [resolveTeams, List.filterMap_append]
  · intro env ts₁ ts₂
    simp [teamContentPieces, List.filterMap_append]

/-- C10: deleting a catalog item is owner-gated — an unknown id, a non-user
scope, or a different owner returns `false` with the content store and cache
untouched; only the owner's delete removes the item's `README.md` and
`config.yaml` and triggers the cache refresh. -/
theorem delete_catalog_item_owner_gated (contents : List (String × String))
    (cache : List CatalogItem) (user_id item_id : String) :
    (cache.find? (fun i => i.id = item_id) = none →
        deleteCatalogItem contents cache user_id item_id = (false, contents, false))
    ∧ (∀ item, cache.find? (fun i => i.id = item_id) = some item →
        ¬(item.scope = CatalogScope.user ∧ item.scope_id = some user_id) →
        deleteCatalogItem contents cache user_id item_id = (false, contents, false))
    ∧ (∀ item, cache.find? (fun i => i.id = item_id) = some item →
        item.scope = CatalogScope.user → item.scope_id = some user_id →
        deleteCatalogItem contents cache user_id item_id
          = (true,
             (contents.filter (fun kv => decide (kv.1 ≠ item.git_path ++ "/README.md"))).filter
               (fun kv => decide (kv.1 ≠ item.git_path ++ "/config.yaml")),
             true)) := by
  refine ⟨?_, ?_, ?_⟩
  · intro h
    simp [deleteCatalogItem, h]
  · intro item h hno
    simp only [deleteCatalogItem, h]
    rw [if_neg hno]
  · intro item h hs ho
    simp [deleteCatalogItem, h, hs, ho]

/-- Witness for C10: the owner deletes their own user-scoped item. -/
theorem delete_catalog_item_owner_gated_witness :
    [exUserItem].find? (fun i => i.id = "i1") = some exUserItem
    ∧ exUserItem.scope = CatalogScope.user
    ∧ exUserItem.scope_id = some "U"
    ∧ deleteCatalogItem exDeleteContents [exUserItem] "U" "i1"
        = (true,
           (exDeleteContents.filter
              (fun kv => decide (kv.1 ≠ exUserItem.git_path ++ "/README.md"))).filter
             (fun kv => decide (kv.1 ≠ exUserItem.git_path ++ "/config.yaml")),
           true) :=
  ⟨by decide, by decide, by decide,
   (delete_catalog_item_owner_gated exDeleteContents [exUserItem] "U" "i1").2.2
     exUserItem (by decide) (by decide) (by decide)⟩


/-- Every path listed under the three type directories starts with one of the
recognized prefixes. -/
theorem mem_gitPathsOf_starts {store : List String} {p : String}
    (h : p ∈ Sync.gitPathsOf store) :
    ∃ pr ∈ Sync.DIRECTORY_TYPE_MAP, strStarts p pr.1 = true := by
  unfold Sync.gitPathsOf at h
  rw [List.mem_dedup, List.mem_flatMap] at h
  obtain ⟨d, hd, hp⟩ := h
  rw [List.mem_map] at hd
  obtain ⟨pr, hpr, rfl⟩ := hd
  refine ⟨pr, hpr, ?_⟩
  unfold Sync.listContents at hp
  rw [List.mem_filter] at hp
  have h2 := hp.2
  simp only [Sync.DIRECTORY_TYPE_MAP, List.mem_cons, List.not_mem_nil, or_false] at hpr
  rcases hpr with rfl | rfl | rfl <;>
    simpa [show strEnds "skills/" "/" = true from rfl,
           show strEnds "mcps/" "/" = true from rfl,
           show strEnds "tools/" "/" = true from rfl] using h2

/-- Every listed git path classifies to a recognized item type. -/
theorem pathToType_isSome_of_mem {store : List String} {p : String}
    (h : p ∈ Sync.gitPathsOf store) : (Sync.pathToType p).isSome = true := by
  obtain ⟨pr, hpr, hs⟩ := mem_gitPathsOf_starts h
  unfold Sync.pathToType
  have hfs : (List.find? (fun pr => strStarts p pr.1) Sync.DIRECTORY_TYPE_MAP).isSome = true :=
    List.find?_isSome.mpr ⟨pr, hpr, hs⟩
  obtain ⟨v, hv⟩ := Option.isSome_iff_exists.mp hfs
  rw [hv]
  rfl

/-- The `existing_by_path` resolves every present path to a record bearing it. -/
theorem lastByPath_spec {idx0 : List Sync.CatalogItem} {p : String}
    (h : p ∈ idx0.map (fun j => j.git_path)) :
    ∃ r, Sync.lastByPath idx0 p = some r ∧ r ∈ idx0 ∧ r.git_path = p := by
  have hex : ∃ r ∈ idx0.reverse, (fun j => decide (j.git_path = p)) r = true := by
    rw [List.mem_map] at h
    obtain ⟨r, hr, hrp⟩ := h
    exact ⟨r, List.mem_reverse.mpr hr, by simp [hrp]⟩
  rw [← List.find?_isSome] at hex
  obtain ⟨r, hr⟩ := Option.isSome_iff_exists.mp hex
  refine ⟨r, hr, List.mem_reverse.mp (List.mem_of_find?_eq_some hr), ?_⟩
  have := List.find?_some hr
  simpa using this

/-- Effect of the `sync_all` create loop: fresh-id records for the recognized
paths are appended, counted as created, with the freshness invariant kept. -/
theorem createLoop_spec (now author : Nat) : ∀ (ps : List String) (s : Sync.AllState),
    (∀ j ∈ s.index, j.id < s.nextId) →
    ∃ new : List Sync.CatalogItem,
      (ps.foldl (Sync.createStep now author) s).index = s.index ++ new
      ∧ new.map (fun j => j.git_path) = ps.filter (fun p => (Sync.pathToType p).isSome)
      ∧ (∀ j ∈ new, s.nextId ≤ j.id)
      ∧ (∀ j ∈ (ps.foldl (Sync.createStep now author) s).index,
          j.id < (ps.foldl (Sync.createStep now author) s).nextId)
      ∧ ((s.index.map (fun j => j.id)).Nodup →
          ((ps.foldl (Sync.createStep now author) s).index.map (fun j => j.id)).Nodup)
      ∧ (ps.foldl (Sync.createStep now author) s).created
          = s.created + (ps.filter (fun p => (Sync.pathToType p).isSome)).length
      ∧ (ps.foldl (Sync.createStep now author) s).updated = s.updated
      ∧ (ps.foldl (Sync.createStep now author) s).deleted = s.deleted
      ∧ s.nextId ≤ (ps.foldl (Sync.createStep now author) s).nextId := by
  intro ps
  induction ps with
  | nil =>
    intro s hb
    exact ⟨[], by simp, by simp, by simp, hb, fun h => h, by simp, rfl, rfl, Nat.le_refl _⟩
  | cons p ps ih =>
    intro s hb
    rw [List.foldl_cons]
    cases hty : Sync.pathToType p with
    | none =>
      have hstep : Sync.createStep now author s p = s := by
        simp [Sync.createStep, hty]
      rw [hstep]
      obtain ⟨new, h1, h2, h3, h4, h5, h6, h7, h8, h9⟩ := ih s hb
      refine ⟨new, h1, ?_, h3, h4, h5, ?_, h7, h8, h9⟩
      · rw [h2, List.filter_cons]
        simp [hty]
      · rw [h6, List.filter_cons]
        simp [hty]
    | some ty =>
      have happ : Sync.saveItem s.index (Sync.mkCatalogItem s.nextId now author p ty)
          = s.index ++ [Sync.mkCatalogItem s.nextId now author p ty] :=
        saveItem_append (fun j hj => Nat.ne_of_lt (hb j hj))
      have hstep : Sync.createStep now author s p
          = { s with
                index := s.index ++ [Sync.mkCatalogItem s.nextId now author p ty],
                nextId := s.nextId + 1,
                created := s.created + 1 } := by
        simp [Sync.createStep, hty, happ]
      rw [hstep]
      have hb2 : ∀ j ∈ s.index ++ [Sync.mkCatalogItem s.nextId now author p ty],
          j.id < s.nextId + 1 := by
        intro j hj
        rcases List.mem_append.mp hj with hl | hr
        · exact Nat.lt_trans (hb j hl) (Nat.lt_succ_self _)
        · rw [List.mem_singleton] at hr
          subst hr
          exact Nat.lt_succ_self _
      obtain ⟨new, h1, h2, h3, h4, h5, h6, h7, h8, h9⟩ := ih
        { s with
            index := s.index ++ [Sync.mkCatalogItem s.nextId now author p ty],
            nextId := s.nextId + 1,
            created := s.created + 1 } hb2
      refine ⟨Sync.mkCatalogItem s.nextId now author p ty :: new, ?_, ?_, ?_, h4, ?_, ?_, h7, h8, ?_⟩
      · rw [h1, List.append_assoc]
        rfl
      · rw [List.filter_cons]
        simp only [hty, Option.isSome_some, if_pos]
        rw [← h2]
        rfl
      · intro j hj
        rcases List.mem_cons.mp hj with rfl | hr
        · exact Nat.le_refl _
        · exact Nat.le_trans (Nat.le_succ _) (h3 j hr)
      · intro hnd
        apply h5
        rw [List.map_append, List.map_singleton]
        apply List.Nodup.append hnd (List.nodup_singleton _)
        intro a ha hb3
        rw [List.mem_singleton] at hb3
        subst hb3
        rw [List.mem_map] at ha
        obtain ⟨j, hj, hje⟩ := ha
        exact Nat.ne_of_lt (hb j hj) hje
      · rw [h6, List.filter_cons]
        simp only [hty, Option.isSome_some, if_pos]
        simp only [List.length_cons]
        omega
      · exact Nat.le_trans (Nat.le_succ _) h9


/-- Effect of the `sync_all` delete loop: with unique ids and paths in the
original index, deleting the looked-up records removes exactly the records
bearing the listed paths, leaves the freshly created tail untouched, and counts
one deletion per path. -/
theorem deleteLoop_spec (idx0 : List Sync.CatalogItem)
    (hids0 : (idx0.map (fun j => j.id)).Nodup)
    (hpaths0 : (idx0.map (fun j => j.git_path)).Nodup) :
    ∀ (ps : List String) (s : Sync.AllState) (pre new : List Sync.CatalogItem),
    s.index = pre ++ new →
    (∀ j ∈ pre, j ∈ idx0) →
    (∀ j ∈ new, ∀ r ∈ idx0, r.id ≠ j.id) →
    (∀ p ∈ ps, p ∈ idx0.map (fun j => j.git_path)) →
    (ps.foldl (Sync.deleteStep idx0) s).index
        = pre.filter (fun j => decide (j.git_path ∉ ps)) ++ new
    ∧ (ps.foldl (Sync.deleteStep idx0) s).deleted = s.deleted + ps.length
    ∧ (ps.foldl (Sync.deleteStep idx0) s).created = s.created
    ∧ (ps.foldl (Sync.deleteStep idx0) s).updated = s.updated
    ∧ (ps.foldl (Sync.deleteStep idx0) s).nextId = s.nextId := by
  intro ps
  induction ps with
  | nil =>
    intro s pre new hidx hpre hnew hps
    refine ⟨?_, rfl, rfl, rfl, rfl⟩
    rw [List.foldl_nil, hidx]
    congr 1
    symm
    rw [List.filter_eq_self]
    intro j _
    simp
  | cons p ps ih =>
    intro s pre new hidx hpre hnew hps
    have hpmem : p ∈ idx0.map (fun j => j.git_path) := hps p (List.mem_cons_self p ps)
    obtain ⟨r, hrfind, hrmem, hrpath⟩ := lastByPath_spec hpmem
    have hstep : Sync.deleteStep idx0 s p
        = { s with index := Sync.deleteItem s.index r.id, deleted := s.deleted + 1 } := by
      simp [Sync.deleteStep, hrfind]
    have hdel : Sync.deleteItem s.index r.id
        = pre.filter (fun j => decide (j.git_path ≠ p)) ++ new := by
      rw [hidx]
      unfold Sync.deleteItem
      rw [List.filter_append]
      congr 1
      · apply List.filter_congr
        intro j hj
        rw [decide_eq_decide]
        have hjmem := hpre j hj
        constructor
        · intro hidne hpe
          apply hidne
          have hje : j = r :=
            List.inj_on_of_nodup_map hpaths0 hjmem hrmem (hpe.trans hrpath.symm)
          rw [hje]
        · intro hpne hie
          apply hpne
          have hje : j = r := List.inj_on_of_nodup_map hids0 hjmem hrmem hie
          rw [hje, hrpath]
      · rw [List.filter_eq_self]
        intro j hj
        simp only [decide_eq_true_eq]
        exact fun e => (hnew j hj r hrmem) e.symm
    rw [List.foldl_cons, hstep]
    have hpre2 : ∀ j ∈ pre.filter (fun j => decide (j.git_path ≠ p)), j ∈ idx0 :=
      fun j hj => hpre j (List.mem_of_mem_filter hj)
    have hps2 : ∀ q ∈ ps, q ∈ idx0.map (fun j => j.git_path) :=
      fun q hq => hps q (List.mem_cons_of_mem p hq)
    obtain ⟨h1, h2, h3, h4, h5⟩ := ih
      { s with index := Sync.deleteItem s.index r.id, deleted := s.deleted + 1 }
      (pre.filter (fun j => decide (j.git_path ≠ p))) new hdel hpre2 hnew hps2
    refine ⟨?_, ?_, h3, h4, h5⟩
    · rw [h1]
      congr 1
      rw [List.filter_filter]
      apply List.filter_congr
      intro j hj
      by_cases he1 : j.git_path = p <;> by_cases he2 : j.git_path ∈ ps <;>
        simp [he1, he2]
    · rw [h2]
      simp only [List.length_cons]
      omega

/-- The touch loop never changes the created or deleted counters. -/
theorem touchLoop_counts (now : Nat) (idx0 : List Sync.CatalogItem) :
    ∀ (ps : List String) (s : Sync.AllState),
    (ps.foldl (Sync.touchStep now idx0) s).created = s.created
    ∧ (ps.foldl (Sync.touchStep now idx0) s).deleted = s.deleted := by
  intro ps
  induction ps with
  | nil => intro s; exact ⟨rfl, rfl⟩
  | cons p ps ih =>
    intro s
    rw [List.foldl_cons]
    cases hfind : Sync.lastByPath idx0 p with
    | none =>
      have hstep : Sync.touchStep now idx0 s p
          = { s with errors := s.errors ++ ["Failed to update item for " ++ p] } := by
        simp [Sync.touchStep, hfind]
      rw [hstep]
      exact ih _
    | some r =>
      have hstep : Sync.touchStep now idx0 s p
          = { s with
                index := Sync.saveItem s.index { r with updated_at := now },
                updated := s.updated + 1 } := by
        simp [Sync.touchStep, hfind]
      rw [hstep]
      exact ih _

/-- Effect of the `sync_all` touch loop: when every looked-up record still has a
representative (same id, same path) in the current index and ids are unique,
re-saving the touched records leaves the id and path columns unchanged. -/
theorem touchLoop_spec (now : Nat) (idx0 : List Sync.CatalogItem) :
    ∀ (ps : List String) (s : Sync.AllState),
    ((s.index.map (fun j => j.id)).Nodup) →
    (∀ p ∈ ps, ∀ r, Sync.lastByPath idx0 p = some r →
        ∃ j ∈ s.index, j.id = r.id ∧ j.git_path = r.git_path) →
    (ps.foldl (Sync.touchStep now idx0) s).index.map (fun j => j.git_path)
        = s.index.map (fun j => j.git_path)
    ∧ (ps.foldl (Sync.touchStep now idx0) s).index.map (fun j => j.id)
        = s.index.map (fun j => j.id)
    ∧ (ps.foldl (Sync.touchStep now idx0) s).nextId = s.nextId := by
  intro ps
  induction ps with
  | nil => intro s _ _; exact ⟨rfl, rfl, rfl⟩
  | cons p ps ih =>
    intro s hnd hinv
    rw [List.foldl_cons]
    cases hfind : Sync.lastByPath idx0 p with
    | none =>
      have hstep : Sync.touchStep now idx0 s p
          = { s with errors := s.errors ++ ["Failed to update item for " ++ p] } := by
        simp [Sync.touchStep, hfind]
      rw [hstep]
      exact ih _ hnd (fun q hq => hinv q (List.mem_cons_of_mem p hq))
    | some r =>
      obtain ⟨j0, hj0mem, hj0id, hj0path⟩ := hinv p (List.mem_cons_self p ps) r hfind
      have hrepl : Sync.saveItem s.index { r with updated_at := now }
          = s.index.map (fun j => if j.id = r.id then { r with updated_at := now } else j) :=
        saveItem_replace ⟨j0, hj0mem, hj0id⟩
      have hstep : Sync.touchStep now idx0 s p
          = { s with
                index := s.index.map (fun j => if j.id = r.id then { r with updated_at := now } else j),
                updated := s.updated + 1 } := by
        simp only [Sync.touchStep, hfind]
        rw [hrepl]
      rw [hstep]
      have hmapid : (s.index.map (fun j => if j.id = r.id then { r with updated_at := now } else j)).map (fun j => j.id)
          = s.index.map (fun j => j.id) := by
        rw [List.map_map]
        apply List.map_congr_left
        intro j _
        by_cases hj : j.id = r.id <;> simp [hj]
      have hmappath : (s.index.map (fun j => if j.id = r.id then { r with updated_at := now } else j)).map (fun j => j.git_path)
          = s.index.map (fun j => j.git_path) := by
        rw [List.map_map]
        apply List.map_congr_left
        intro j hjm
        simp only [Function.comp_apply]
        by_cases hj : j.id = r.id
        · rw [if_pos hj]
          show r.git_path = j.git_path
          have hje : j = j0 :=
            List.inj_on_of_nodup_map hnd hjm hj0mem (hj.trans hj0id.symm)
          rw [hje, hj0path]
        · rw [if_neg hj]
      have hnd2 : ((s.index.map (fun j => if j.id = r.id then { r with updated_at := now } else j)).map (fun j => j.id)).Nodup := by
        rw [hmapid]
        exact hnd
      have hinv2 : ∀ q ∈ ps, ∀ r2, Sync.lastByPath idx0 q = some r2 →
          ∃ j ∈ s.index.map (fun j => if j.id = r.id then { r with updated_at := now } else j),
            j.id = r2.id ∧ j.git_path = r2.git_path := by
        intro q hq r2 hfind2
        obtain ⟨j1, hj1mem, hj1id, hj1path⟩ := hinv q (List.mem_cons_of_mem p hq) r2 hfind2
        refine ⟨if j1.id = r.id then { r with updated_at := now } else j1,
          List.mem_map_of_mem _ hj1mem, ?_, ?_⟩
        · by_cases hj : j1.id = r.id
          · rw [if_pos hj]
            show r.id = r2.id
            omega
          · rw [if_neg hj]
            exact hj1id
        · by_cases hj : j1.id = r.id
          · rw [if_pos hj]
            show r.git_path = r2.git_path
            have hje : j1 = j0 :=
              List.inj_on_of_nodup_map hnd hj1mem hj0mem (hj.trans hj0id.symm)
            rw [← hj1path, hje, hj0path]
          · rw [if_neg hj]
            exact hj1path
      obtain ⟨h1, h2, h3⟩ := ih
        { s with
            index := s.index.map (fun j => if j.id = r.id then { r with updated_at := now } else j),
            updated := s.updated + 1 } hnd2 hinv2
      exact ⟨h1.trans hmappath, h2.trans hmapid, h3⟩


/-- Full effect of `sync_all` on a well-formed state: the index's path set
becomes exactly the listed git paths, with `created` counting `P − R` and
`deleted` counting `R − P`. -/
theorem syncAll_spec (st : Sync.SyncState)
    (hids : (st.index.map (fun j => j.id)).Nodup)
    (hpaths : (st.index.map (fun j => j.git_path)).Nodup)
    (hfresh : ∀ j ∈ st.index, j.id < st.nextId) :
    (∀ p, p ∈ (Sync.syncAll st).1.index.map (fun j => j.git_path)
        ↔ p ∈ Sync.gitPathsOf st.store)
    ∧ (Sync.syncAll st).2.created
        = ((Sync.gitPathsOf st.store).filter
            (fun p => decide (p ∉ st.index.map (fun j => j.git_path)))).length
    ∧ (Sync.syncAll st).2.deleted
        = (((st.index.map (fun j => j.git_path)).dedup).filter
            (fun p => decide (p ∉ Sync.gitPathsOf st.store))).length := by
  obtain ⟨new, hc1, hc2, hc3, hc4, hc5, hc6, hc7, hc8, hc9⟩ :=
    createLoop_spec st.now st.author
      ((Sync.gitPathsOf st.store).filter
        (fun p => decide (p ∉ ((st.index.map (fun j => j.git_path)).dedup))))
      ⟨st.index, st.nextId, 0, 0, 0, []⟩ hfresh
  set toCreate : List String := (Sync.gitPathsOf st.store).filter
    (fun p => decide (p ∉ ((st.index.map (fun j => j.git_path)).dedup))) with htc
  set toDelete : List String := ((st.index.map (fun j => j.git_path)).dedup).filter
    (fun p => decide (p ∉ Sync.gitPathsOf st.store)) with htd
  set toCheck : List String := (Sync.gitPathsOf st.store).filter
    (fun p => decide (p ∈ ((st.index.map (fun j => j.git_path)).dedup))) with hck
  set s1 : Sync.AllState := toCreate.foldl (Sync.createStep st.now st.author)
    ⟨st.index, st.nextId, 0, 0, 0, []⟩ with hs1
  set s2 : Sync.AllState := toDelete.foldl (Sync.deleteStep st.index) s1 with hs2
  set s3 : Sync.AllState := toCheck.foldl (Sync.touchStep st.now st.index) s2 with hs3
  have hrec : ∀ p ∈ toCreate, (Sync.pathToType p).isSome = true :=
    fun p hp => pathToType_isSome_of_mem (List.mem_of_mem_filter hp)
  have htc_all : toCreate.filter (fun p => (Sync.pathToType p).isSome) = toCreate :=
    List.filter_eq_self.mpr hrec
  have hnewpaths : new.map (fun j => j.git_path) = toCreate := by
    rw [hc2, htc_all]
  have hnewfresh : ∀ j ∈ new, ∀ r ∈ st.index, r.id ≠ j.id := by
    intro j hj r hr
    exact Nat.ne_of_lt (Nat.lt_of_lt_of_le (hfresh r hr) (hc3 j hj))
  have hdpaths : ∀ p ∈ toDelete, p ∈ st.index.map (fun j => j.git_path) := by
    intro p hp
    have := List.mem_of_mem_filter hp
    rwa [List.mem_dedup] at this
  obtain ⟨hd1, hd2, hd3, hd4, hd5⟩ :=
    deleteLoop_spec st.index hids hpaths toDelete s1 st.index new hc1
      (fun j hj => hj) hnewfresh hdpaths
  have hnd2 : (s2.index.map (fun j => j.id)).Nodup := by
    have hsub : (st.index.filter (fun j => decide (j.git_path ∉ toDelete)) ++ new).Sublist
        (st.index ++ new) :=
      List.Sublist.append (List.filter_sublist _) (List.Sublist.refl _)
    have hnd1 : ((st.index ++ new).map (fun j => j.id)).Nodup := by
      have := hc5 hids
      rwa [hc1] at this
    rw [hd1]
    exact List.Nodup.sublist (List.Sublist.map _ hsub) hnd1
  have hinv : ∀ p ∈ toCheck, ∀ r, Sync.lastByPath st.index p = some r →
      ∃ j ∈ s2.index, j.id = r.id ∧ j.git_path = r.git_path := by
    intro p hp r hfind
    have hpP : p ∈ Sync.gitPathsOf st.store := List.mem_of_mem_filter hp
    have hrmem : r ∈ st.index :=
      List.mem_reverse.mp (List.mem_of_find?_eq_some hfind)
    have hrpath : r.git_path = p := by
      have := List.find?_some hfind
      simpa using this
    have hnd : r.git_path ∉ toDelete := by
      rw [hrpath]
      intro hmem
      have h2 := (List.mem_filter.mp hmem).2
      rw [decide_eq_true_eq] at h2
      exact h2 hpP
    refine ⟨r, ?_, rfl, rfl⟩
    rw [hd1]
    apply List.mem_append_left
    rw [List.mem_filter]
    exact ⟨hrmem, by simpa using hnd⟩
  obtain ⟨ht1, ht2, ht3⟩ := touchLoop_spec st.now st.index toCheck s2 hnd2 hinv
  obtain ⟨htc1, htc2⟩ := touchLoop_counts st.now st.index toCheck s2
  have hfin_index : (Sync.syncAll st).1.index = s3.index := rfl
  have hfin_created : (Sync.syncAll st).2.created = s3.created := rfl
  have hfin_deleted : (Sync.syncAll st).2.deleted = s3.deleted := rfl
  refine ⟨?_, ?_, ?_⟩
  · intro p
    rw [hfin_index, ht1, hd1, List.map_append, hnewpaths, List.mem_append]
    constructor
    · rintro (hk | hcr)
      · rw [List.mem_map] at hk
        obtain ⟨j, hjf, hjp⟩ := hk
        rw [List.mem_filter] at hjf
        have hjR : p ∈ st.index.map (fun j => j.git_path) :=
          hjp ▸ List.mem_map_of_mem _ hjf.1
        have hnotdel : j.git_path ∉ toDelete := by simpa using hjf.2
        by_contra hpP
        apply hnotdel
        rw [hjp, htd, List.mem_filter]
        refine ⟨?_, by simpa using hpP⟩
        rw [List.mem_dedup]
        exact hjR
      · exact List.mem_of_mem_filter hcr
    · intro hpP
      by_cases hpR : p ∈ st.index.map (fun j => j.git_path)
      · left
        rw [List.mem_map] at hpR
        obtain ⟨j, hjmem, hjp⟩ := hpR
        rw [List.mem_map]
        refine ⟨j, ?_, hjp⟩
        rw [List.mem_filter]
        refine ⟨hjmem, ?_⟩
        simp only [decide_eq_true_eq]
        intro hmem
        have h2 := (List.mem_filter.mp hmem).2
        rw [decide_eq_true_eq] at h2
        exact h2 (hjp ▸ hpP)
      · right
        rw [htc, List.mem_filter]
        refine ⟨hpP, ?_⟩
        simp only [decide_eq_true_eq]
        rw [List.mem_dedup]
        exact hpR
  · rw [hfin_created, htc1, hd3, hc6, htc_all]
    have : toCreate.length
        = ((Sync.gitPathsOf st.store).filter
            (fun p => decide (p ∉ st.index.map (fun j => j.git_path)))).length := by
      rw [htc]
      congr 1
      apply List.filter_congr
      intro p _
      rw [decide_eq_decide]
      rw [List.mem_dedup]
    simpa using this
  · rw [hfin_deleted, htc2, hd2, hc8]
    simp


/-- C2: after `sync_all()` on a well-formed state (unique record ids and paths,
fresh id supply), the set of paths in the metadata index equals the set `P` of
content-store paths under the three type directories: each path of `P − R` got
a record created and each record of `R − P` was deleted. -/
theorem sync_all_reconciles_index_to_store (st : Sync.SyncState)
    (hids : (st.index.map (fun j => j.id)).Nodup)
    (hpaths : (st.index.map (fun j => j.git_path)).Nodup)
    (hfresh : ∀ j ∈ st.index, j.id < st.nextId) :
    (∀ p, p ∈ (Sync.syncAll st).1.index.map (fun j => j.git_path)
        ↔ p ∈ Sync.gitPathsOf st.store)
    ∧ (Sync.syncAll st).2.created
        = ((Sync.gitPathsOf st.store).filter
            (fun p => decide (p ∉ st.index.map (fun j => j.git_path)))).length
    ∧ (Sync.syncAll st).2.deleted
        = (((st.index.map (fun j => j.git_path)).dedup).filter
            (fun p => decide (p ∉ Sync.gitPathsOf st.store))).length :=
  syncAll_spec st hids hpaths hfresh

/-- Witness for C2 on the mixed example state: one creation, one deletion, and
the surviving intersection path recorded in the index. -/
theorem sync_all_reconciles_index_to_store_witness :
    (Sync.syncAll exSyncState).2.created = 1
    ∧ (Sync.syncAll exSyncState).2.deleted = 1
    ∧ "skills/a/x.md" ∈ (Sync.syncAll exSyncState).1.index.map (fun j => j.git_path) :=
  ⟨((sync_all_reconciles_index_to_store exSyncState (by decide) (by decide)
      (by decide)).2.1).trans (by decide),
   ((sync_all_reconciles_index_to_store exSyncState (by decide) (by decide)
      (by decide)).2.2).trans (by decide),
   ((sync_all_reconciles_index_to_store exSyncState (by decide) (by decide)
      (by decide)).1 "skills/a/x.md").mpr (by decide)⟩

/-- When the diff lists are both empty, `sync_all` reports no creations and no
deletions. -/
theorem syncAll_counts_zero (st2 : Sync.SyncState)
    (hC : (Sync.gitPathsOf st2.store).filter
        (fun p => decide (p ∉ ((st2.index.map (fun j => j.git_path)).dedup))) = [])
    (hD : ((st2.index.map (fun j => j.git_path)).dedup).filter
        (fun p => decide (p ∉ Sync.gitPathsOf st2.store)) = []) :
    (Sync.syncAll st2).2.created = 0 ∧ (Sync.syncAll st2).2.deleted = 0 := by
  constructor
  · show (Sync.syncAll st2).2.created = 0
    simp only [Sync.syncAll]
    rw [hC, hD]
    simp only [List.foldl_nil]
    exact (touchLoop_counts st2.now st2.index _ _).1
  · show (Sync.syncAll st2).2.deleted = 0
    simp only [Sync.syncAll]
    rw [hC, hD]
    simp only [List.foldl_nil]
    exact (touchLoop_counts st2.now st2.index _ _).2

/-- C3: `sync_all()` is idempotent for creation and deletion — a second call on
the resulting state, with no content-store change (any later clock value),
reports `created = 0` and `deleted = 0`. -/
theorem sync_all_idempotent_second_call (st : Sync.SyncState) (now2 : Nat)
    (hids : (st.index.map (fun j => j.id)).Nodup)
    (hpaths : (st.index.map (fun j => j.git_path)).Nodup)
    (hfresh : ∀ j ∈ st.index, j.id < st.nextId) :
    (Sync.syncAll { (Sync.syncAll st).1 with now := now2 }).2.created = 0
    ∧ (Sync.syncAll { (Sync.syncAll st).1 with now := now2 }).2.deleted = 0 := by
  obtain ⟨hset, -, -⟩ := syncAll_spec st hids hpaths hfresh
  have hstore : ({ (Sync.syncAll st).1 with now := now2 } : Sync.SyncState).store
      = st.store := rfl
  have hindex : ({ (Sync.syncAll st).1 with now := now2 } : Sync.SyncState).index
      = (Sync.syncAll st).1.index := rfl
  apply syncAll_counts_zero
  · rw [List.filter_eq_nil_iff]
    intro p hp
    rw [decide_eq_true_eq, not_not, List.mem_dedup, hindex]
    exact (hset p).mpr (by rwa [hstore] at hp)
  · rw [List.filter_eq_nil_iff]
    intro p hp
    rw [List.mem_dedup, hindex] at hp
    rw [decide_eq_true_eq, not_not, hstore]
    exact (hset p).mp hp

/-- Witness for C3 on the mixed example state, with the clock advanced. -/
theorem sync_all_idempotent_second_call_witness :
    (Sync.syncAll { (Sync.syncAll exSyncState).1 with now := 9 }).2.created = 0
    ∧ (Sync.syncAll { (Sync.syncAll exSyncState).1 with now := 9 }).2.deleted = 0 :=
  sync_all_idempotent_second_call exSyncState 9 (by decide) (by decide) (by decide)

end Atlas
